import Mathlib

/-!
Verification of the retrieval core of the structured-git-commits repository.

The TypeScript sources are shallowly embedded: strings become `String`
(JS `toLowerCase` is modelled per character with `Char.toLower`, which agrees
with JS on the ASCII data the trailers hold), JS arrays become `List`,
JS `Set` (insertion-ordered) becomes a first-occurrence deduplicated `List`,
JS objects used as string-keyed maps become association lists in key insertion
order (`pushAssoc` appends a new key at the end, as JS object key insertion
does), and fallible operations return `Except`/`Option` values.  Filesystem
and git effects are passed in explicitly: the content of the index file is an
`IndexFile` value (missing / unparsable / well-formed), `git rev-parse`
results are `Except` arguments, and writes are modelled as a trace of
filesystem operations.
-/

set_option autoImplicit false
set_option maxRecDepth 8192

namespace SGC

/-! ## Matching primitives (src/scripts/lib/matching.ts) -/

/-- Per-character lowercasing, modelling JS `String.prototype.toLowerCase`
on the character lists that embed JS strings. -/
def lowerChars (s : String) : List Char :=
  s.data.map Char.toLower

/-- Embeds `scopeMatches` (matching.ts:16-20):
`s === p || (s.startsWith(p) && s[p.length] === "/")` after lowercasing both,
where the out-of-range index yields `undefined`, hence `false`. -/
def scopeMatches (scopeValue pattern : String) : Bool :=
  let s := lowerChars scopeValue
  let p := lowerChars pattern
  s == p || (p.isPrefixOf s && s[p.length]? == some '/')

/-- JS regex word character class `\w = [A-Za-z0-9_]`. -/
def isWordChar (c : Char) : Bool :=
  ('a' ≤ c && c ≤ 'z') || ('A' ≤ c && c ≤ 'Z') || ('0' ≤ c && c ≤ '9') || c == '_'

/-- Wordness of the character at position `i`; out-of-range positions count
as non-word, as JS regex `\b` treats the string edges. -/
def wordAt (t : List Char) (i : Nat) : Bool :=
  (t[i]?.map isWordChar).getD false

/-- JS `\b`: position `i` (between characters `i-1` and `i`) is a word
boundary iff exactly one side is a word character. -/
def boundaryAt (t : List Char) (i : Nat) : Bool :=
  (if i = 0 then false else wordAt t (i - 1)) != wordAt t i

/-- The (escaped, hence literal) keyword occurs at position `i` of `t`. -/
def occursAt (t k : List Char) (i : Nat) : Bool :=
  (t.drop i).take k.length == k

/-- Embeds `wordBoundaryMatch` (matching.ts:28-31).  The source escapes every
regex metacharacter in `keyword` and tests `new RegExp("\\b" ++ escaped ++
"\\b", "i")`: the escaped keyword is a literal, so the regex matches iff the
keyword occurs somewhere in the text with a `\b` boundary on each side; the
`i` flag is modelled by lowercasing both sides. -/
def wordBoundaryMatch (text keyword : String) : Bool :=
  let t := lowerChars text
  let k := lowerChars keyword
  (List.range (t.length + 1)).any fun i =>
    occursAt t k i && boundaryAt t i && boundaryAt t (i + k.length)

/-- Wordness of the first character of a list (`false` when empty). -/
def wordHead (l : List Char) : Bool :=
  (l.head?.map isWordChar).getD false

/-- Wordness of the last character of a list (`false` when empty). -/
def wordLast (l : List Char) : Bool :=
  (l.getLast?.map isWordChar).getD false

/-! ## Data model (spec section 3; scripts/types.ts is referenced throughout
the sources).  `IntentType` is the fixed 8-value vocabulary (`INTENT_TYPES`).
`StructuredCommit` carries the fields the embedded operations read; the
opaque `context` key-value map is omitted as no embedded operation reads
it. -/

inductive IntentType where
  | enableCapability
  | fixDefect
  | improveQuality
  | restructure
  | configureInfra
  | document
  | explore
  | resolveBlocker
deriving DecidableEq, Repr

structure StructuredCommit where
  hash : String
  date : String
  type : String
  headerScope : Option String
  subject : String
  body : String
  intent : Option IntentType
  scope : List String
  decidedAgainst : List String
  session : Option String
  refs : List String
  breaking : Option String
deriving DecidableEq, Repr

/-- Projection stored in the index `commits` map (build-trailer-index.ts,
`IndexedCommit`): display-relevant fields only, no body. -/
structure IndexedCommit where
  hash : String
  date : String
  subject : String
  intent : Option IntentType
  scope : List String
  session : Option String
  decidedAgainst : List String
deriving DecidableEq, Repr

/-- The trailer index (spec section 3, build-trailer-index.ts).  The JS
objects `byIntent`/`byScope`/`bySession`/`commits` are embedded as
association lists in key insertion order. -/
structure TrailerIndex where
  version : Nat
  generated : String
  headCommit : String
  commitCount : Nat
  byIntent : List (IntentType × List String)
  byScope : List (String × List String)
  bySession : List (String × List String)
  withDecidedAgainst : List String
  commits : List (String × IndexedCommit)
deriving DecidableEq, Repr

/-- Query parameters (query.ts:25-32).  `limit` is a positive JS integer in
the sources (CLI-validated), embedded as `Nat`. -/
structure QueryParams where
  intents : List IntentType
  scope : Option String
  session : Option String
  decisionsOnly : Bool
  decidedAgainst : Option String
  limit : Nat
deriving DecidableEq, Repr

/-- JS truthiness of a nullable string: `null` and `""` are falsy. -/
def optActive : Option String → Bool
  | none => false
  | some s => !(s == "")

/-! ## Composable filters (src/scripts/lib/query.ts:39-70) -/

/-- Embeds `filterByIntents` (query.ts:39-44): OR across intents. -/
def filterByIntents (intents : List IntentType) (commits : List StructuredCommit) :
    List StructuredCommit :=
  if intents.length = 0 then commits
  else commits.filter fun c =>
    match c.intent with
    | some i => intents.contains i
    | none => false

/-- Embeds `filterByScope` (query.ts:47-50). -/
def filterByScope (pattern : String) (commits : List StructuredCommit) :
    List StructuredCommit :=
  commits.filter fun c => c.scope.any fun s => scopeMatches s pattern

/-- Embeds `filterBySession` (query.ts:53-56). -/
def filterBySession (session : String) (commits : List StructuredCommit) :
    List StructuredCommit :=
  commits.filter fun c => c.session == some session

/-- Embeds `filterDecisionsOnly` (query.ts:59-62). -/
def filterDecisionsOnly (commits : List StructuredCommit) : List StructuredCommit :=
  commits.filter fun c => decide (c.decidedAgainst.length > 0)

/-- Embeds `filterByDecidedAgainst` (query.ts:65-70). -/
def filterByDecidedAgainst (keyword : String) (commits : List StructuredCommit) :
    List StructuredCommit :=
  commits.filter fun c => c.decidedAgainst.any fun d => wordBoundaryMatch d keyword

/-! ## Composed filter (query.ts:81-108).  Each `if` of `applyQueryFilters`
becomes one step; JS truthiness of the nullable string fields is the
`some s` / `s ≠ ""` test. -/

def intentsStep (params : QueryParams) (l : List StructuredCommit) : List StructuredCommit :=
  if params.intents.length > 0 then filterByIntents params.intents l else l

def scopeStep (params : QueryParams) (l : List StructuredCommit) : List StructuredCommit :=
  match params.scope with
  | some s => if s == "" then l else filterByScope s l
  | none => l

def sessionStep (params : QueryParams) (l : List StructuredCommit) : List StructuredCommit :=
  match params.session with
  | some s => if s == "" then l else filterBySession s l
  | none => l

def decisionsStep (params : QueryParams) (l : List StructuredCommit) : List StructuredCommit :=
  if params.decisionsOnly then filterDecisionsOnly l else l

def decidedAgainstStep (params : QueryParams) (l : List StructuredCommit) :
    List StructuredCommit :=
  match params.decidedAgainst with
  | some k => if k == "" then l else filterByDecidedAgainst k l
  | none => l

/-- The predicate-filter part of `applyQueryFilters`: the five guarded filter
applications of query.ts:85-105 in source order. -/
def applyPredicateFilters (commits : List StructuredCommit) (params : QueryParams) :
    List StructuredCommit :=
  decidedAgainstStep params (decisionsStep params (sessionStep params
    (scopeStep params (intentsStep params commits))))

/-- Embeds `applyQueryFilters` (query.ts:81-108): the five guarded filters,
then `slice(0, limit)`. -/
def applyQueryFilters (commits : List StructuredCommit) (params : QueryParams) :
    List StructuredCommit :=
  (applyPredicateFilters commits params).take params.limit

/-! ## Index-based query (query.ts:119-191) -/

/-- Options consulted by `canUseIndex` (query.ts:119-133). -/
structure IndexOpts where
  noIndex : Bool
  path : Option String
deriving DecidableEq, Repr

/-- Embeds `canUseIndex` (query.ts:119-133). -/
def canUseIndex (params : QueryParams) (opts : IndexOpts) : Bool :=
  if opts.noIndex then false
  else if optActive opts.path then false
  else params.intents.length > 0 || optActive params.scope || optActive params.session ||
    params.decisionsOnly || optActive params.decidedAgainst

/-- First-occurrence deduplication with an explicit seen set. -/
def setFromListAux (seen : List String) : List String → List String
  | [] => []
  | h :: t =>
    if seen.contains h then setFromListAux seen t
    else h :: setFromListAux (h :: seen) t

/-- First-occurrence deduplication: `new Set(array)` preserving JS Set
insertion order. -/
def setFromList (l : List String) : List String :=
  setFromListAux [] l

/-- Lookup in a JS object embedded as an association list (`m[k] ?? []`):
value of the first (in these maps: only) entry with the key, else `[]`. -/
def lookupAssoc {κ : Type} [BEq κ] : List (κ × List String) → κ → List String
  | [], _ => []
  | kv :: rest, k => if kv.1 == k then kv.2 else lookupAssoc rest k

/-- The scope loop of `queryIndexForHashes` (query.ts:178-187): every value
list whose key prefix-matches the pattern, in `Object.entries` order. -/
def scopeCandidates (byScope : List (String × List String)) (pattern : String) :
    List String :=
  (byScope.filter fun kv => scopeMatches kv.1 pattern).flatMap fun kv => kv.2

/-- The `intersect` closure of `queryIndexForHashes` (query.ts:148-157):
first call seeds the candidate set (JS `new Set(hashes)`, insertion order),
later calls delete candidates missing from the incoming hash set, keeping
candidate order. -/
def intersectStep (cand : Option (List String)) (hashes : List String) :
    Option (List String) :=
  match cand with
  | none => some (setFromList hashes)
  | some c => some (c.filter fun h => hashes.contains h)

/-- Intent block of `queryIndexForHashes` (query.ts:160-168): union of the
`byIntent` hash lists across the requested intents. -/
def qIntentsStep (index : TrailerIndex) (params : QueryParams)
    (cand : Option (List String)) : Option (List String) :=
  if params.intents.length > 0 then
    intersectStep cand (params.intents.flatMap fun i => lookupAssoc index.byIntent i)
  else cand

/-- Session block of `queryIndexForHashes` (query.ts:170-172). -/
def qSessionStep (index : TrailerIndex) (params : QueryParams)
    (cand : Option (List String)) : Option (List String) :=
  match params.session with
  | some s => if s == "" then cand else intersectStep cand (lookupAssoc index.bySession s)
  | none => cand

/-- Decisions block of `queryIndexForHashes` (query.ts:174-176). -/
def qDecisionsStep (index : TrailerIndex) (params : QueryParams)
    (cand : Option (List String)) : Option (List String) :=
  if params.decisionsOnly || optActive params.decidedAgainst then
    intersectStep cand index.withDecidedAgainst
  else cand

/-- Scope block of `queryIndexForHashes` (query.ts:178-187). -/
def qScopeStep (index : TrailerIndex) (params : QueryParams)
    (cand : Option (List String)) : Option (List String) :=
  match params.scope with
  | some p =>
    if p == "" then cand else intersectStep cand (scopeCandidates index.byScope p)
  | none => cand

/-- Embeds `queryIndexForHashes` (query.ts:142-191): the four guarded
intersect blocks in source order, then `[]` for a still-null candidate set,
else `[...candidates].slice(0, limit)`. -/
def queryIndexForHashes (index : TrailerIndex) (params : QueryParams) : List String :=
  match qScopeStep index params (qDecisionsStep index params
      (qSessionStep index params (qIntentsStep index params none))) with
  | none => []
  | some c => c.take params.limit

/-! ## Index build (src/unnamed/part_004, build-trailer-index.ts 445-524).
The git-log read and per-block parsing are external; the build is embedded
as a pure function of the parsed commit list, folding the per-commit loop
body. -/

/-- Embeds `toIndexedCommit` (build-trailer-index.ts:445-453). -/
def toIndexedCommit (c : StructuredCommit) : IndexedCommit :=
  { hash := c.hash
    date := c.date
    subject := c.type ++ "(" ++ c.headerScope.getD "*" ++ "): " ++ c.subject
    intent := c.intent
    scope := c.scope
    session := c.session
    decidedAgainst := c.decidedAgainst }

/-- JS `if (!m[k]) m[k] = []; m[k].push(v)`: append to the value list of an
existing key in place, or append a new key at the end. -/
def pushAssoc {κ : Type} [BEq κ] : List (κ × List String) → κ → String → List (κ × List String)
  | [], k, v => [(k, [v])]
  | kv :: rest, k, v =>
    if kv.1 == k then (kv.1, kv.2 ++ [v]) :: rest else kv :: pushAssoc rest k v

/-- JS `m[k] = v`: overwrite an existing key in place, or append a new key. -/
def upsertAssoc : List (String × IndexedCommit) → String → IndexedCommit →
    List (String × IndexedCommit)
  | [], k, v => [(k, v)]
  | kv :: rest, k, v =>
    if kv.1 == k then (kv.1, v) :: rest else kv :: upsertAssoc rest k v

/-- Loop body of `buildIndex` (build-trailer-index.ts:482-509), one commit. -/
def indexStep (acc : TrailerIndex) (c : StructuredCommit) : TrailerIndex :=
  { acc with
    commits := upsertAssoc acc.commits c.hash (toIndexedCommit c)
    byIntent :=
      match c.intent with
      | some i => pushAssoc acc.byIntent i c.hash
      | none => acc.byIntent
    byScope := c.scope.foldl (fun m s => pushAssoc m s c.hash) acc.byScope
    bySession :=
      match c.session with
      | some s => if s == "" then acc.bySession else pushAssoc acc.bySession s c.hash
      | none => acc.bySession
    withDecidedAgainst :=
      if c.decidedAgainst.length > 0 then acc.withDecidedAgainst ++ [c.hash]
      else acc.withDecidedAgainst }

/-- Embeds `buildIndex` (build-trailer-index.ts:455-524) as a pure function
of the parsed commits (git-log order) and the current HEAD hash. -/
def buildIndexPure (headCommit generated : String) (commits : List StructuredCommit) :
    TrailerIndex :=
  commits.foldl indexStep
    { version := 1
      generated := generated
      headCommit := headCommit
      commitCount := commits.length
      byIntent := []
      byScope := []
      bySession := []
      withDecidedAgainst := []
      commits := [] }

/-! ## Index freshness, load, write (build-trailer-index.ts 394-439, 530-543).
The on-disk index file is an explicit state: missing (read throws), corrupt
(`JSON.parse` throws), or a well-formed `TrailerIndex`. -/

inductive IndexFile where
  | missing
  | corrupt
  | wellFormed (idx : TrailerIndex)
deriving DecidableEq, Repr

/-- `Deno.readTextFile` + `JSON.parse` under try/catch. -/
def readParse : IndexFile → Option TrailerIndex
  | .wellFormed idx => some idx
  | _ => none

structure FreshInfo where
  fresh : Bool
  indexPath : String
  currentHead : String
deriving DecidableEq, Repr

/-- Embeds `checkFreshness` (build-trailer-index.ts:394-417): propagates git
failures (`rev-parse --git-dir`, `rev-parse HEAD`); any read/parse failure of
the file yields `fresh = false` rather than an error. -/
def checkFreshness (gitDir headCommit : Except String String) (file : IndexFile) :
    Except String FreshInfo :=
  match gitDir with
  | .error e => .error e
  | .ok d =>
    match headCommit with
    | .error e => .error e
    | .ok hd =>
      let indexPath := d ++ "/info/trailer-index.json"
      match readParse file with
      | some idx => .ok ⟨idx.headCommit == hd, indexPath, hd⟩
      | none => .ok ⟨false, indexPath, hd⟩

/-- Embeds `loadIndex` (build-trailer-index.ts:423-439): freshness check
first, then re-read + format-version check, every non-fresh or unreadable or
wrong-version outcome giving `Ok(null)` — embedded as `.ok none`. -/
def loadIndex (gitDir headCommit : Except String String) (file : IndexFile) :
    Except String (Option TrailerIndex) :=
  match checkFreshness gitDir headCommit file with
  | .error e => .error e
  | .ok info =>
    if !info.fresh then .ok none
    else
      match readParse file with
      | some idx => if idx.version == 1 then .ok (some idx) else .ok none
      | none => .ok none

/-- A filesystem operation performed while persisting the index; the written
content is recorded as the index value itself (the source writes its JSON
serialization). -/
inductive FsOp where
  | writeFile (path : String) (index : TrailerIndex)
  | rename (src dst : String)
deriving DecidableEq, Repr

def FsOp.isRename : FsOp → Bool
  | .rename _ _ => true
  | _ => false

/-- Embeds `writeIndex` (build-trailer-index.ts:530-543) as the trace of
filesystem operations it performs: a single `Deno.writeTextFile` straight to
the index path. -/
def writeIndex (gitDir : Except String String) (index : TrailerIndex) :
    Except String (List FsOp × String) :=
  match gitDir with
  | .error e => .error e
  | .ok d =>
    let indexPath := d ++ "/info/trailer-index.json"
    .ok ([FsOp.writeFile indexPath index], indexPath)

/-! ## Query entry routing (src/scripts/parse-commits.ts:263-338).  `main`
decides between the index-accelerated path and the full git-log scan; the
decision is embedded as a pure function of the loaded index and whether the
`git log --no-walk` fetch for the resolved hashes succeeds. -/

inductive QueryRoute where
  | indexPath (hashes : List String)
  | emptyNoMatches
  | fullScan
deriving DecidableEq, Repr

/-- Embeds the routing of `main` (parse-commits.ts:268-313): with a usable
fresh index, positive index hits go to the hash fetch (falling back to the
full scan only if that fetch fails), zero index hits short-circuit to the
"No structured commits found." output, and an unusable or unavailable index
goes to the standard git-log path. -/
def chooseQueryRoute (params : QueryParams) (opts : IndexOpts)
    (loaded : Option TrailerIndex) (hashFetchOk : Bool) : QueryRoute :=
  if canUseIndex params opts then
    match loaded with
    | some idx =>
      if (queryIndexForHashes idx params).length > 0 then
        if hashFetchOk then .indexPath (queryIndexForHashes idx params) else .fullScan
      else .emptyNoMatches
    | none => .fullScan
  else .fullScan

/-! ## Context pipeline (src/scripts/git-memory-context.ts).  The hook drains
stdin (ignoring its content and any stdin error), tries the fresh index,
falls back to a bounded git-log read, and on any remaining failure emits
nothing; `STRUCTURED_GIT_SESSION` is an explicit `Option String` argument. -/

def MAX_RECENT_COMMITS : Nat := 10

def MAX_DECISIONS : Nat := 20

structure DecisionEntry where
  scope : List String
  text : String
deriving DecidableEq, Repr

structure RecentCommit where
  hash : String
  subject : String
  scope : List String
deriving DecidableEq, Repr

structure SessionInfo where
  id : String
  commitCount : Nat
deriving DecidableEq, Repr

structure ContextData where
  recentCommits : List RecentCommit
  decisions : List DecisionEntry
  session : Option SessionInfo
deriving DecidableEq, Repr

/-- `index.commits[hash]` lookup (`undefined` when absent). -/
def lookupCommit (m : List (String × IndexedCommit)) (h : String) : Option IndexedCommit :=
  (m.find? fun kv => kv.1 == h).map fun kv => kv.2

/-- Decisions loop of `extractFromIndex` (git-memory-context.ts:92-101):
walk the `withDecidedAgainst` hashes, skip unknown hashes, append each
commit's decided-against texts, both loops breaking at `MAX_DECISIONS`. -/
def collectDecisionsIdx (m : List (String × IndexedCommit)) :
    List String → List DecisionEntry → List DecisionEntry
  | [], acc => acc
  | h :: t, acc =>
    if MAX_DECISIONS ≤ acc.length then acc
    else
      match lookupCommit m h with
      | none => collectDecisionsIdx m t acc
      | some c =>
        collectDecisionsIdx m t
          (acc ++ (c.decidedAgainst.take (MAX_DECISIONS - acc.length)).map
            fun txt => ⟨c.scope, txt⟩)

/-- Embeds `extractFromIndex` (git-memory-context.ts:78-114): commits sorted
by date descending (stable sort, `localeCompare` embedded as the `String`
order, faithful on the ASCII ISO-8601 dates), first `MAX_RECENT_COMMITS`
kept; decisions capped at `MAX_DECISIONS`; session surfaced only when the
env var is truthy and present as a `bySession` key. -/
def extractFromIndex (index : TrailerIndex) (sessionEnv : Option String) : ContextData :=
  let allCommits := index.commits.map fun kv => kv.2
  let sorted := (allCommits.mergeSort fun a b => b.date ≤ a.date).take MAX_RECENT_COMMITS
  let recentCommits := sorted.map fun c => RecentCommit.mk c.hash c.subject c.scope
  let decisions := collectDecisionsIdx index.commits index.withDecidedAgainst []
  let session :=
    match sessionEnv with
    | some sid =>
      if sid == "" then none
      else
        match index.bySession.find? fun kv => kv.1 == sid with
        | some kv => some (SessionInfo.mk sid kv.2.length)
        | none => none
    | none => none
  ⟨recentCommits, decisions, session⟩

/-- Decisions loop of `extractFromGitLog` (git-memory-context.ts:143-150). -/
def collectDecisionsLog : List StructuredCommit → List DecisionEntry → List DecisionEntry
  | [], acc => acc
  | c :: t, acc =>
    if MAX_DECISIONS ≤ acc.length then acc
    else
      collectDecisionsLog t
        (acc ++ (c.decidedAgainst.take (MAX_DECISIONS - acc.length)).map
          fun txt => ⟨c.scope, txt⟩)

/-- Embeds the pure part of `extractFromGitLog` (git-memory-context.ts:120-160):
the git subprocess already limits the log to `MAX_RECENT_COMMITS` entries and
the parse step keeps only well-formed blocks, so the parsed commit list is the
argument. -/
def extractFromGitLogPure (parsed : List StructuredCommit) (sessionEnv : Option String) :
    ContextData :=
  let recentCommits := parsed.map fun c =>
    RecentCommit.mk c.hash (c.type ++ "(" ++ c.headerScope.getD "*" ++ "): " ++ c.subject)
      c.scope
  let decisions := collectDecisionsLog parsed []
  let session :=
    match sessionEnv with
    | some sid =>
      if sid == "" then none
      else
        let count := (parsed.filter fun c => c.session == some sid).length
        if count > 0 then some (SessionInfo.mk sid count) else none
    | none => none
  ⟨recentCommits, decisions, session⟩

/-- Embeds `formatContext` (git-memory-context.ts:166-201): empty output for
zero recent commits, otherwise the decisions section, the recent-commit lines
and the optional session line wrapped in the fixed tag pair. -/
def formatContext (data : ContextData) : String :=
  if data.recentCommits.length = 0 then ""
  else
    let decisionLines : List String :=
      if data.decisions.length > 0 then
        ["Recent decisions (decided-against):"]
          ++ (data.decisions.map fun d =>
            let scopeLabel :=
              if d.scope.length > 0 then "[" ++ String.intercalate ", " d.scope ++ "] "
              else ""
            "- " ++ scopeLabel ++ d.text)
          ++ [""]
      else []
    let commitLines : List String :=
      ["Recent commits:"]
        ++ data.recentCommits.map fun c =>
          let scopeSuffix :=
            if c.scope.length > 0 then " | " ++ String.intercalate ", " c.scope else ""
          String.mk (c.hash.data.take 7) ++ " " ++ c.subject ++ scopeSuffix
    let sessionLines : List String :=
      match data.session with
      | some s =>
        ["", "Session: " ++ s.id ++ " (" ++ toString s.commitCount ++ " commit"
          ++ (if s.commitCount = 1 then "" else "s") ++ ")"]
      | none => []
    let lines := decisionLines ++ commitLines ++ sessionLines
    "<git-memory-context>\n" ++ String.intercalate "\n" lines ++ "\n</git-memory-context>"

/-- Embeds `main` of git-memory-context.ts (lines 207-235): the stdin drain
result and prompt content are ignored; a fresh loaded index goes through
`extractFromIndex`; otherwise (no index or load error) the git-log fallback;
a failing fallback exits silently.  The returned string is what the hook
prints (`""` = nothing printed). -/
def mainContext (stdinFails : Bool) (loadResult : Except String (Option TrailerIndex))
    (gitLogResult : Except String (List StructuredCommit)) (sessionEnv : Option String)
    (promptText : String) : Except String String :=
  let _ := stdinFails
  let _ := promptText
  match loadResult with
  | .ok (some idx) => .ok (formatContext (extractFromIndex idx sessionEnv))
  | _ =>
    match gitLogResult with
    | .ok parsed => .ok (formatContext (extractFromGitLogPure parsed sessionEnv))
    | .error _ => .ok ""

/-! ## Proof-side helpers: the per-commit predicates the guarded scan filters
compute, and the candidate-set invariant of the index query. -/

def passesIntents (params : QueryParams) (c : StructuredCommit) : Bool :=
  if params.intents.length > 0 then
    match c.intent with
    | some i => params.intents.contains i
    | none => false
  else true

def passesScope (params : QueryParams) (c : StructuredCommit) : Bool :=
  match params.scope with
  | some s => if s == "" then true else c.scope.any fun sc => scopeMatches sc s
  | none => true

def passesSession (params : QueryParams) (c : StructuredCommit) : Bool :=
  match params.session with
  | some s => if s == "" then true else c.session == some s
  | none => true

def passesDecisions (params : QueryParams) (c : StructuredCommit) : Bool :=
  if params.decisionsOnly then decide (c.decidedAgainst.length > 0) else true

def passesDecidedAgainst (params : QueryParams) (c : StructuredCommit) : Bool :=
  match params.decidedAgainst with
  | some k =>
    if k == "" then true else c.decidedAgainst.any fun d => wordBoundaryMatch d k
  | none => true

def passesAll (params : QueryParams) (c : StructuredCommit) : Bool :=
  passesIntents params c && passesScope params c && passesSession params c &&
    passesDecisions params c && passesDecidedAgainst params c

/-- Invariant of the candidate set threaded through the intersect steps of
`queryIndexForHashes`: a still-null candidate means no filter has
contributed yet (`Q` trivially true), and a materialized candidate list is
duplicate-free and holds exactly the hashes of commits satisfying `Q`. -/
def CandOk (commits : List StructuredCommit) (cand : Option (List String))
    (Q : StructuredCommit → Bool) : Prop :=
  match cand with
  | none => ∀ c, Q c = true
  | some l => l.Nodup ∧ ∀ h, h ∈ l ↔ ∃ c ∈ commits, c.hash = h ∧ Q c = true

/-! ## Concrete instances used by the witnesses and counterexamples -/

/-- Commit whose decided-against entry names Redis at a word boundary. -/
def redisKept : StructuredCommit :=
  ⟨"hg", "2024-01-01T00:00:00+00:00", "feat", none, "adopt pub-sub", "",
    none, [], ["Redis pub/sub (no persistence)"], none, [], none⟩

/-- Commit whose decided-against entry contains redis only inside predis. -/
def redisRejected : StructuredCommit :=
  ⟨"hb", "2024-01-02T00:00:00+00:00", "feat", none, "add client", "",
    none, [], ["predis PHP client (wrong ecosystem)"], none, [], none⟩

/-- Older commit with intent fix-defect (hash h1, first in git-log order). -/
def exCommitB : StructuredCommit :=
  ⟨"h1", "2024-01-01T00:00:00+00:00", "fix", none, "one", "",
    some .fixDefect, [], [], none, [], none⟩

/-- Newer commit with intent enable-capability (hash h2). -/
def exCommitA : StructuredCommit :=
  ⟨"h2", "2024-01-02T00:00:00+00:00", "feat", none, "two", "",
    some .enableCapability, [], [], none, [], none⟩

/-- Two distinct commits sharing one hash: the first matches the intent
filter only, the second the session filter only. -/
def dupHash1 : StructuredCommit :=
  ⟨"h", "2024-01-01T00:00:00+00:00", "feat", none, "x", "",
    some .enableCapability, [], [], none, [], none⟩

def dupHash2 : StructuredCommit :=
  ⟨"h", "2024-01-02T00:00:00+00:00", "feat", none, "y", "",
    none, [], [], some "s", [], none⟩

/-- Commits of the spec section 8 scope scenario. -/
def exScopeX : StructuredCommit :=
  ⟨"hx", "2024-01-01T00:00:00+00:00", "feat", none, "x", "",
    none, ["auth/registration"], [], none, [], none⟩

def exScopeY : StructuredCommit :=
  ⟨"hy", "2024-01-02T00:00:00+00:00", "feat", none, "y", "",
    none, ["oauth/provider"], [], none, [], none⟩

def exScopeZ : StructuredCommit :=
  ⟨"hz", "2024-01-03T00:00:00+00:00", "feat", none, "z", "",
    none, [], [], none, [], none⟩

/-- Two-intent query with a truncating limit. -/
def exParamsAB : QueryParams :=
  ⟨[.enableCapability, .fixDefect], none, none, false, none, 1⟩

/-- Intent-and-session query with a non-truncating limit. -/
def exParamsDup : QueryParams :=
  ⟨[.enableCapability], none, some "s", false, none, 10⟩

/-- Scope-only query with a non-truncating limit. -/
def exParamsScope : QueryParams :=
  ⟨[], some "auth", none, false, none, 50⟩

/-- Decided-against keyword query. -/
def exParamsRedis : QueryParams :=
  ⟨[], none, none, false, some "redis", 10⟩

/-- A well-formed index whose stored head pointer is not the current tip. -/
def exStaleIdx : TrailerIndex :=
  ⟨1, "2024-01-01T00:00:00+00:00", "OLD", 0, [], [], [], [], []⟩

/-- A well-formed, fresh-headed index of an unrecognized format version. -/
def exVersion2Idx : TrailerIndex :=
  ⟨2, "2024-01-01T00:00:00+00:00", "HEAD", 0, [], [], [], [], []⟩

/-- A well-formed index whose stored head pointer equals the current tip. -/
def exFreshIdx : TrailerIndex :=
  ⟨1, "2024-01-01T00:00:00+00:00", "HEAD", 0, [], [], [], [], []⟩

/-- Context data holding one recent commit and no decisions. -/
def exContextData : ContextData :=
  ⟨[⟨"abcdef1234", "feat(auth): add login", ["auth"]⟩], [], none⟩

/-! # Theorems -/

/-! ## Matching lemmas -/

theorem scopeMatches_iff (sv pat : String) :
    scopeMatches sv pat = true ↔
      lowerChars sv = lowerChars pat ∨
        ∃ rest, lowerChars sv = lowerChars pat ++ '/' :: rest := by
  unfold scopeMatches
  simp only [Bool.or_eq_true, Bool.and_eq_true, beq_iff_eq,
    List.isPrefixOf_iff_prefix]
  constructor
  · rintro (h | ⟨⟨t, ht⟩, hslash⟩)
    · exact Or.inl h
    · rw [← ht, List.getElem?_append_right (le_refl _), Nat.sub_self] at hslash
      match t, hslash with
      | c :: t, hslash =>
        simp only [List.getElem?_cons_zero, Option.some.injEq] at hslash
        exact Or.inr ⟨t, by rw [← ht, hslash]⟩
  · rintro (h | ⟨rest, hrest⟩)
    · exact Or.inl h
    · refine Or.inr ⟨⟨'/' :: rest, hrest.symm⟩, ?_⟩
      rw [hrest, List.getElem?_append_right (le_refl _), Nat.sub_self,
        List.getElem?_cons_zero]

theorem wordAt_zero (l : List Char) : wordAt l 0 = wordHead l := by
  cases l <;> simp [wordAt, wordHead]

theorem wordAt_append_length (pre rest : List Char) :
    wordAt (pre ++ rest) pre.length = wordHead rest := by
  unfold wordAt wordHead
  rw [List.getElem?_append_right (le_refl _), Nat.sub_self]
  cases rest <;> simp

theorem wordAt_append_pred (pre rest : List Char) (h : pre ≠ []) :
    wordAt (pre ++ rest) (pre.length - 1) = wordLast pre := by
  unfold wordAt wordLast
  have hlen : 0 < pre.length := List.length_pos.mpr h
  rw [List.getElem?_append_left (Nat.sub_lt hlen Nat.one_pos),
    List.getLast?_eq_getElem?]

theorem boundaryAt_append (pre rest : List Char) :
    boundaryAt (pre ++ rest) pre.length = (wordLast pre != wordHead rest) := by
  unfold boundaryAt
  rcases eq_or_ne pre [] with h | h
  · subst h
    simp [wordLast, wordAt_zero]
  · have hlen : pre.length ≠ 0 := by
      simpa [List.length_eq_zero] using h
    rw [if_neg hlen, wordAt_append_pred pre rest h, wordAt_append_length]

theorem wordBoundaryMatch_iff (text keyword : String) :
    wordBoundaryMatch text keyword = true ↔
      ∃ pre post, lowerChars text = pre ++ lowerChars keyword ++ post ∧
        (wordLast pre != wordHead (lowerChars keyword ++ post)) = true ∧
        (wordLast (pre ++ lowerChars keyword) != wordHead post) = true := by
  unfold wordBoundaryMatch occursAt
  simp only [List.any_eq_true, List.mem_range, Bool.and_eq_true, beq_iff_eq]
  constructor
  · rintro ⟨i, hi, ⟨hocc, hb1⟩, hb2⟩
    set t := lowerChars text with ht
    set k := lowerChars keyword with hk
    have hle : i ≤ t.length := Nat.lt_succ_iff.mp hi
    have hdi : t.drop i = k ++ (t.drop i).drop k.length := by
      conv_lhs => rw [← List.take_append_drop k.length (t.drop i)]
      rw [hocc]
    have hsplit : t = t.take i ++ (k ++ (t.drop i).drop k.length) :=
      calc t = t.take i ++ t.drop i := (List.take_append_drop i t).symm
      _ = t.take i ++ (k ++ (t.drop i).drop k.length) := by rw [← hdi]
    refine ⟨t.take i, (t.drop i).drop k.length, ?_, ?_, ?_⟩
    · rw [← List.append_assoc] at hsplit
      exact hsplit
    · have hlen : (t.take i).length = i := by
        rw [List.length_take, Nat.min_eq_left hle]
      rw [← boundaryAt_append (t.take i) (k ++ (t.drop i).drop k.length), hlen, ← hsplit]
      exact hb1
    · have hlen2 : (t.take i ++ k).length = i + k.length := by
        rw [List.length_append, List.length_take, Nat.min_eq_left hle]
      rw [← boundaryAt_append (t.take i ++ k) ((t.drop i).drop k.length), hlen2,
        List.append_assoc, ← hsplit]
      exact hb2
  · rintro ⟨pre, post, heq, hb1, hb2⟩
    set t := lowerChars text with ht
    set k := lowerChars keyword with hk
    have heq2 : t = pre ++ (k ++ post) := by
      rw [List.append_assoc] at heq
      exact heq
    refine ⟨pre.length, ?_, ⟨?_, ?_⟩, ?_⟩
    · rw [heq2]
      simp only [List.length_append]
      omega
    · rw [heq2, List.drop_left, List.take_left]
    · rw [heq2, boundaryAt_append pre (k ++ post)]
      exact hb1
    · have hpk : pre.length + k.length = (pre ++ k).length := (List.length_append pre k).symm
      rw [heq, hpk, boundaryAt_append (pre ++ k) post]
      exact hb2

/-! ## Claims C1 and C4 -/

/-- C1: `scopeMatches s p` is true exactly when, after lowercasing both
sides, `s` equals `p` or `s` starts with `p` followed by a slash; mere
substring containment (oauth/provider vs auth, authentication vs auth) is
rejected. -/
theorem claim_C1_scopeMatches_hierarchical :
    (∀ s p : String, scopeMatches s p = true ↔
        lowerChars s = lowerChars p ∨
          ∃ rest, lowerChars s = lowerChars p ++ '/' :: rest) ∧
    scopeMatches "auth" "auth" = true ∧
    scopeMatches "auth/registration" "auth" = true ∧
    scopeMatches "AUTH/Registration" "auth" = true ∧
    scopeMatches "oauth/provider" "auth" = false ∧
    scopeMatches "authentication" "auth" = false :=
  ⟨scopeMatches_iff, by decide, by decide, by decide, by decide, by decide⟩

/-- C4: `wordBoundaryMatch text keyword` is true exactly when the keyword
occurs in the text (case-insensitively) flanked by word boundaries, and
false when the keyword occurs only inside a longer token; the escaped
keyword acts as a literal, so the test is total.  Concretely, redis matches
"Redis pub/sub" but not predis, jedis or redistribution, and the
decided-against filter keeps only the commit whose entry names Redis at a
word boundary. -/
theorem claim_C4_wordBoundaryMatch_precision :
    (∀ text keyword : String, wordBoundaryMatch text keyword = true ↔
        ∃ pre post, lowerChars text = pre ++ lowerChars keyword ++ post ∧
          (wordLast pre != wordHead (lowerChars keyword ++ post)) = true ∧
          (wordLast (pre ++ lowerChars keyword) != wordHead post) = true) ∧
    wordBoundaryMatch "Redis pub/sub" "redis" = true ∧
    wordBoundaryMatch "predis" "redis" = false ∧
    wordBoundaryMatch "jedis" "redis" = false ∧
    wordBoundaryMatch "redistribution" "redis" = false ∧
    filterByDecidedAgainst "redis" [redisKept, redisRejected] = [redisKept] :=
  ⟨wordBoundaryMatch_iff, by decide, by decide, by decide, by decide, by decide⟩

/-! ## Filter-pipeline lemmas -/

theorem filterByIntents_sublist (intents : List IntentType) (l : List StructuredCommit) :
    (filterByIntents intents l).Sublist l := by
  unfold filterByIntents
  split
  · exact List.Sublist.refl l
  · exact List.filter_sublist l

theorem intentsStep_sublist (params : QueryParams) (l : List StructuredCommit) :
    (intentsStep params l).Sublist l := by
  unfold intentsStep
  split
  · exact filterByIntents_sublist _ _
  · exact List.Sublist.refl l

theorem scopeStep_sublist (params : QueryParams) (l : List StructuredCommit) :
    (scopeStep params l).Sublist l := by
  cases hps : params.scope with
  | none => simp [scopeStep, hps]
  | some s =>
    simp only [scopeStep, hps]
    split
    · exact List.Sublist.refl l
    · exact List.filter_sublist l

theorem sessionStep_sublist (params : QueryParams) (l : List StructuredCommit) :
    (sessionStep params l).Sublist l := by
  cases hps : params.session with
  | none => simp [sessionStep, hps]
  | some s =>
    simp only [sessionStep, hps]
    split
    · exact List.Sublist.refl l
    · exact List.filter_sublist l

theorem decisionsStep_sublist (params : QueryParams) (l : List StructuredCommit) :
    (decisionsStep params l).Sublist l := by
  unfold decisionsStep
  split
  · exact List.filter_sublist l
  · exact List.Sublist.refl l

theorem decidedAgainstStep_sublist (params : QueryParams) (l : List StructuredCommit) :
    (decidedAgainstStep params l).Sublist l := by
  cases hps : params.decidedAgainst with
  | none => simp [decidedAgainstStep, hps]
  | some k =>
    simp only [decidedAgainstStep, hps]
    split
    · exact List.Sublist.refl l
    · exact List.filter_sublist l

theorem applyPredicateFilters_sublist (commits : List StructuredCommit)
    (params : QueryParams) : (applyPredicateFilters commits params).Sublist commits := by
  unfold applyPredicateFilters
  exact ((((decidedAgainstStep_sublist params _).trans
    (decisionsStep_sublist params _)).trans
    (sessionStep_sublist params _)).trans
    (scopeStep_sublist params _)).trans
    (intentsStep_sublist params commits)

theorem mem_intentsStep (params : QueryParams) (l : List StructuredCommit)
    (c : StructuredCommit) :
    c ∈ intentsStep params l ↔ c ∈ l ∧ passesIntents params c = true := by
  unfold intentsStep passesIntents filterByIntents
  by_cases hcond : params.intents.length > 0
  · rw [if_pos hcond, if_pos hcond, if_neg (by omega)]
    simp [List.mem_filter]
  · rw [if_neg hcond, if_neg hcond]
    simp

theorem mem_scopeStep (params : QueryParams) (l : List StructuredCommit)
    (c : StructuredCommit) :
    c ∈ scopeStep params l ↔ c ∈ l ∧ passesScope params c = true := by
  cases hps : params.scope with
  | none => simp [scopeStep, passesScope, hps]
  | some s =>
    simp only [scopeStep, passesScope, hps]
    split
    · simp
    · simp [filterByScope, List.mem_filter]

theorem mem_sessionStep (params : QueryParams) (l : List StructuredCommit)
    (c : StructuredCommit) :
    c ∈ sessionStep params l ↔ c ∈ l ∧ passesSession params c = true := by
  cases hps : params.session with
  | none => simp [sessionStep, passesSession, hps]
  | some s =>
    simp only [sessionStep, passesSession, hps]
    split
    · simp
    · simp [filterBySession, List.mem_filter]

theorem mem_decisionsStep (params : QueryParams) (l : List StructuredCommit)
    (c : StructuredCommit) :
    c ∈ decisionsStep params l ↔ c ∈ l ∧ passesDecisions params c = true := by
  unfold decisionsStep passesDecisions
  split
  · simp [filterDecisionsOnly, List.mem_filter]
  · simp

theorem mem_decidedAgainstStep (params : QueryParams) (l : List StructuredCommit)
    (c : StructuredCommit) :
    c ∈ decidedAgainstStep params l ↔ c ∈ l ∧ passesDecidedAgainst params c = true := by
  cases hps : params.decidedAgainst with
  | none => simp [decidedAgainstStep, passesDecidedAgainst, hps]
  | some k =>
    simp only [decidedAgainstStep, passesDecidedAgainst, hps]
    split
    · simp
    · simp [filterByDecidedAgainst, List.mem_filter]

theorem mem_applyPredicateFilters (commits : List StructuredCommit)
    (params : QueryParams) (c : StructuredCommit) :
    c ∈ applyPredicateFilters commits params ↔ c ∈ commits ∧ passesAll params c = true := by
  unfold applyPredicateFilters passesAll
  rw [mem_decidedAgainstStep, mem_decisionsStep, mem_sessionStep, mem_scopeStep,
    mem_intentsStep]
  simp only [Bool.and_eq_true]
  tauto

/-! ## Claim C10 -/

/-- C10: `applyQueryFilters` yields an order-preserving sublist of its input
of length at most `limit`, and equals the untruncated predicate-filter result
(the same query with a non-truncating limit) cut to `limit` — truncation
happens after all predicate filters. -/
theorem claim_C10_applyQueryFilters_sublist_limit :
    ∀ (commits : List StructuredCommit) (params : QueryParams),
      (applyQueryFilters commits params).Sublist commits ∧
      (applyQueryFilters commits params).length ≤ params.limit ∧
      applyQueryFilters commits params =
        (applyQueryFilters commits { params with limit := commits.length }).take
          params.limit := by
  intro commits params
  refine ⟨?_, ?_, ?_⟩
  · exact (List.take_sublist _ _).trans (applyPredicateFilters_sublist commits params)
  · exact List.length_take_le _ _
  · show (applyPredicateFilters commits params).take params.limit =
      ((applyPredicateFilters commits { params with limit := commits.length }).take
        commits.length).take params.limit
    have hirrel : applyPredicateFilters commits { params with limit := commits.length } =
        applyPredicateFilters commits params := rfl
    rw [hirrel,
      List.take_of_length_le ((applyPredicateFilters_sublist commits params).length_le)]

/-! ## Claim C5 -/

theorem scopeStep_congr (p q : QueryParams) (h : p.scope = q.scope)
    (l : List StructuredCommit) : scopeStep p l = scopeStep q l := by
  unfold scopeStep
  rw [h]

theorem sessionStep_congr (p q : QueryParams) (h : p.session = q.session)
    (l : List StructuredCommit) : sessionStep p l = sessionStep q l := by
  unfold sessionStep
  rw [h]

theorem decisionsStep_congr (p q : QueryParams) (h : p.decisionsOnly = q.decisionsOnly)
    (l : List StructuredCommit) : decisionsStep p l = decisionsStep q l := by
  unfold decisionsStep
  rw [h]

theorem decidedAgainstStep_congr (p q : QueryParams)
    (h : p.decidedAgainst = q.decidedAgainst) (l : List StructuredCommit) :
    decidedAgainstStep p l = decidedAgainstStep q l := by
  unfold decidedAgainstStep
  rw [h]

theorem filterByIntents_pair (commits : List StructuredCommit) (A B : IntentType) :
    filterByIntents [A, B] commits =
      commits.filter fun c =>
        decide (c ∈ filterByIntents [A] commits) ||
          decide (c ∈ filterByIntents [B] commits) := by
  unfold filterByIntents
  rw [if_neg (by simp)]
  refine List.filter_congr fun c hc => ?_
  rcases hi : c.intent with _ | i <;>
    simp [List.mem_filter, hc, hi]

/-- C5: with `intents = [A, B]`, the query result is the union of the two
single-intent filter results (membership in either), with every other
active filter and the limit applied on top — intents combine by OR, the
remaining filters by AND. -/
theorem claim_C5_intents_union :
    ∀ (commits : List StructuredCommit) (A B : IntentType)
      (scope session decidedAgainst : Option String) (decisionsOnly : Bool) (limit : Nat),
      applyQueryFilters commits ⟨[A, B], scope, session, decisionsOnly, decidedAgainst, limit⟩ =
        applyQueryFilters
          (commits.filter fun c =>
            decide (c ∈ filterByIntents [A] commits) ||
              decide (c ∈ filterByIntents [B] commits))
          ⟨[], scope, session, decisionsOnly, decidedAgainst, limit⟩ := by
  intro commits A B scope session decidedAgainst decisionsOnly limit
  set p1 : QueryParams := ⟨[A, B], scope, session, decisionsOnly, decidedAgainst, limit⟩
  set p2 : QueryParams := ⟨[], scope, session, decisionsOnly, decidedAgainst, limit⟩
  set U := commits.filter fun c =>
    decide (c ∈ filterByIntents [A] commits) || decide (c ∈ filterByIntents [B] commits)
  have h1 : intentsStep p1 commits = U := by
    unfold intentsStep
    rw [if_pos (by simp [p1])]
    exact filterByIntents_pair commits A B
  have h2 : intentsStep p2 U = U := by
    unfold intentsStep
    rw [if_neg (by simp [p2])]
  show (applyPredicateFilters commits p1).take limit =
    (applyPredicateFilters U p2).take limit
  unfold applyPredicateFilters
  rw [h1, h2, scopeStep_congr p1 p2 rfl, sessionStep_congr p1 p2 rfl,
    decisionsStep_congr p1 p2 rfl, decidedAgainstStep_congr p1 p2 rfl]

/-! ## Set and association-list lemmas -/

theorem mem_setFromListAux (l : List String) (seen : List String) (x : String) :
    x ∈ setFromListAux seen l ↔ x ∈ l ∧ x ∉ seen := by
  induction l generalizing seen with
  | nil => simp [setFromListAux]
  | cons h t ih =>
    rw [setFromListAux]
    by_cases hs : seen.contains h
    · rw [if_pos hs, ih, List.mem_cons]
      have hhs : h ∈ seen := by simpa using hs
      constructor
      · rintro ⟨hxt, hxs⟩
        exact ⟨Or.inr hxt, hxs⟩
      · rintro ⟨hx | hxt, hxs⟩
        · subst hx
          exact absurd hhs hxs
        · exact ⟨hxt, hxs⟩
    · rw [if_neg hs]
      have hhs : h ∉ seen := by simpa using hs
      rw [List.mem_cons, ih]
      by_cases hx : x = h
      · subst hx
        simp [hhs]
      · simp only [List.mem_cons]
        constructor
        · rintro (he | ⟨hxt, hxs⟩)
          · exact absurd he hx
          · exact ⟨Or.inr hxt, fun hmem => hxs (Or.inr hmem)⟩
        · rintro ⟨he | hxt, hxs⟩
          · exact absurd he hx
          · exact Or.inr ⟨hxt, fun hmem => by
              rcases hmem with hm | hm
              · exact hx hm
              · exact hxs hm⟩

theorem nodup_setFromListAux (l : List String) (seen : List String) :
    (setFromListAux seen l).Nodup := by
  induction l generalizing seen with
  | nil => simp [setFromListAux]
  | cons h t ih =>
    rw [setFromListAux]
    by_cases hs : seen.contains h
    · rw [if_pos hs]
      exact ih seen
    · rw [if_neg hs]
      refine List.Nodup.cons ?_ (ih (h :: seen))
      rw [mem_setFromListAux]
      rintro ⟨-, hns⟩
      exact hns (List.mem_cons_self h seen)

theorem mem_setFromList (l : List String) (x : String) :
    x ∈ setFromList l ↔ x ∈ l := by
  rw [setFromList, mem_setFromListAux]
  simp

theorem nodup_setFromList (l : List String) : (setFromList l).Nodup :=
  nodup_setFromListAux l []

theorem lookupAssoc_pushAssoc {κ : Type} [BEq κ] [LawfulBEq κ]
    (m : List (κ × List String)) (k : κ) (v : String) (q : κ) :
    lookupAssoc (pushAssoc m k v) q =
      if k == q then lookupAssoc m q ++ [v] else lookupAssoc m q := by
  induction m with
  | nil =>
    by_cases h : k == q <;> simp [pushAssoc, lookupAssoc, h]
  | cons kv rest ih =>
    by_cases hkv : kv.1 == k
    · have hk : kv.1 = k := eq_of_beq hkv
      by_cases hq : k == q
      · simp [pushAssoc, lookupAssoc, hkv, hk, hq]
      · simp [pushAssoc, lookupAssoc, hkv, hk, hq]
    · by_cases hq : kv.1 == q
      · have hne : (k == q) = false := by
          refine beq_eq_false_iff_ne.mpr fun he => hkv ?_
          rw [he]
          exact hq
        simp [pushAssoc, lookupAssoc, hkv, hq, hne]
      · simp [pushAssoc, lookupAssoc, hkv, hq, ih]

theorem scopeCandidates_cons (kv : String × List String) (m : List (String × List String))
    (p : String) :
    scopeCandidates (kv :: m) p =
      (if scopeMatches kv.1 p then kv.2 else []) ++ scopeCandidates m p := by
  unfold scopeCandidates
  rw [List.filter_cons]
  split <;> simp

theorem mem_scopeCandidates_pushAssoc (m : List (String × List String)) (k v p x : String) :
    x ∈ scopeCandidates (pushAssoc m k v) p ↔
      x ∈ scopeCandidates m p ∨ (scopeMatches k p = true ∧ x = v) := by
  induction m with
  | nil =>
    by_cases h : scopeMatches k p <;>
      simp [pushAssoc, scopeCandidates_cons, scopeCandidates, h]
  | cons kv rest ih =>
    by_cases hkv : kv.1 == k
    · have hk : kv.1 = k := eq_of_beq hkv
      rw [pushAssoc, if_pos hkv]
      rw [scopeCandidates_cons, scopeCandidates_cons]
      by_cases hm : scopeMatches kv.1 p
      · rw [hk] at hm
        simp only [hk, hm, if_pos]
        simp [or_assoc, or_comm, or_left_comm]
      · rw [hk] at hm
        simp [hk, hm]
    · rw [pushAssoc, if_neg hkv]
      rw [scopeCandidates_cons, scopeCandidates_cons]
      simp only [List.mem_append, ih]
      tauto

/-! ## Characterization of the built index -/

theorem mem_byIntent_foldl (commits : List StructuredCommit) (acc : TrailerIndex)
    (i : IntentType) (x : String) :
    x ∈ lookupAssoc (commits.foldl indexStep acc).byIntent i ↔
      x ∈ lookupAssoc acc.byIntent i ∨
        ∃ c ∈ commits, c.intent = some i ∧ c.hash = x := by
  induction commits generalizing acc with
  | nil => simp
  | cons c t ih =>
    rw [List.foldl_cons, ih]
    have hstep : (indexStep acc c).byIntent =
        match c.intent with
        | some j => pushAssoc acc.byIntent j c.hash
        | none => acc.byIntent := rfl
    rw [hstep]
    rcases hci : c.intent with _ | j
    · simp [hci]
    · dsimp only
      rw [lookupAssoc_pushAssoc]
      by_cases hj : j == i
      · have hje : j = i := eq_of_beq hj
        subst hje
        rw [if_pos hj]
        simp only [List.mem_append, List.mem_singleton, List.mem_cons]
        constructor
        · rintro ((hm | hx | hx0) | ⟨c', hc', hP, hh⟩)
          · exact Or.inl hm
          · exact Or.inr ⟨c, Or.inl rfl, hci, hx.symm⟩
          · exact absurd hx0 (List.not_mem_nil x)
          · exact Or.inr ⟨c', Or.inr hc', hP, hh⟩
        · rintro (hm | ⟨c', hc' | hc', hP, hh⟩)
          · exact Or.inl (Or.inl hm)
          · subst hc'
            exact Or.inl (Or.inr (Or.inl hh.symm))
          · exact Or.inr ⟨c', hc', hP, hh⟩
      · have hne : j ≠ i := fun he => hj (by rw [he]; exact beq_self_eq_true i)
        rw [if_neg (by simp [hj])]
        simp only [List.mem_cons]
        constructor
        · rintro (hm | ⟨c', hc', hP, hh⟩)
          · exact Or.inl hm
          · exact Or.inr ⟨c', Or.inr hc', hP, hh⟩
        · rintro (hm | ⟨c', hc' | hc', hP, hh⟩)
          · exact Or.inl hm
          · subst hc'
            rw [hci] at hP
            exact absurd (Option.some.inj hP) hne
          · exact Or.inr ⟨c', hc', hP, hh⟩

theorem mem_bySession_foldl (commits : List StructuredCommit) (acc : TrailerIndex)
    (s : String) (hs : s ≠ "") (x : String) :
    x ∈ lookupAssoc (commits.foldl indexStep acc).bySession s ↔
      x ∈ lookupAssoc acc.bySession s ∨
        ∃ c ∈ commits, c.session = some s ∧ c.hash = x := by
  induction commits generalizing acc with
  | nil => simp
  | cons c t ih =>
    rw [List.foldl_cons, ih]
    have hstep : (indexStep acc c).bySession =
        match c.session with
        | some u => if u == "" then acc.bySession else pushAssoc acc.bySession u c.hash
        | none => acc.bySession := rfl
    rw [hstep]
    rcases hcs : c.session with _ | u
    · simp [hcs]
    · dsimp only
      by_cases hu : u == ""
      · have hue : u = "" := eq_of_beq hu
        subst hue
        have hns : ¬("" = s) := fun he => hs he.symm
        simp [hcs, hns]
      · rw [if_neg (by simp [hu]), lookupAssoc_pushAssoc]
        by_cases hus : u == s
        · have hue : u = s := eq_of_beq hus
          subst hue
          rw [if_pos hus]
          simp only [List.mem_append, List.mem_singleton, List.mem_cons]
          constructor
          · rintro ((hm | hx | hx0) | ⟨c', hc', hP, hh⟩)
            · exact Or.inl hm
            · exact Or.inr ⟨c, Or.inl rfl, hcs, hx.symm⟩
            · exact absurd hx0 (List.not_mem_nil x)
            · exact Or.inr ⟨c', Or.inr hc', hP, hh⟩
          · rintro (hm | ⟨c', hc' | hc', hP, hh⟩)
            · exact Or.inl (Or.inl hm)
            · subst hc'
              exact Or.inl (Or.inr (Or.inl hh.symm))
            · exact Or.inr ⟨c', hc', hP, hh⟩
        · have hne : u ≠ s := fun he => hus (by rw [he]; exact beq_self_eq_true s)
          rw [if_neg (by simp [hus])]
          simp only [List.mem_cons]
          constructor
          · rintro (hm | ⟨c', hc', hP, hh⟩)
            · exact Or.inl hm
            · exact Or.inr ⟨c', Or.inr hc', hP, hh⟩
          · rintro (hm | ⟨c', hc' | hc', hP, hh⟩)
            · exact Or.inl hm
            · subst hc'
              rw [hcs] at hP
              exact absurd (Option.some.inj hP) hne
            · exact Or.inr ⟨c', hc', hP, hh⟩

theorem mem_withDecidedAgainst_foldl (commits : List StructuredCommit)
    (acc : TrailerIndex) (x : String) :
    x ∈ (commits.foldl indexStep acc).withDecidedAgainst ↔
      x ∈ acc.withDecidedAgainst ∨
        ∃ c ∈ commits, c.decidedAgainst ≠ [] ∧ c.hash = x := by
  induction commits generalizing acc with
  | nil => simp
  | cons c t ih =>
    rw [List.foldl_cons, ih]
    have hstep : (indexStep acc c).withDecidedAgainst =
        if c.decidedAgainst.length > 0 then acc.withDecidedAgainst ++ [c.hash]
        else acc.withDecidedAgainst := rfl
    rw [hstep]
    by_cases hd : c.decidedAgainst.length > 0
    · have hne : c.decidedAgainst ≠ [] := by
        intro he
        rw [he] at hd
        simp at hd
      rw [if_pos hd]
      simp only [List.mem_append, List.mem_singleton, List.mem_cons]
      constructor
      · rintro ((hm | hx | hx0) | ⟨c', hc', hP, hh⟩)
        · exact Or.inl hm
        · exact Or.inr ⟨c, Or.inl rfl, hne, hx.symm⟩
        · exact absurd hx0 (List.not_mem_nil x)
        · exact Or.inr ⟨c', Or.inr hc', hP, hh⟩
      · rintro (hm | ⟨c', hc' | hc', hP, hh⟩)
        · exact Or.inl (Or.inl hm)
        · subst hc'
          exact Or.inl (Or.inr (Or.inl hh.symm))
        · exact Or.inr ⟨c', hc', hP, hh⟩
    · have hnil : c.decidedAgainst = [] := by
        rcases hda : c.decidedAgainst with _ | ⟨a, b⟩
        · rfl
        · rw [hda] at hd
          simp at hd
      rw [if_neg hd]
      simp [hnil]

theorem mem_scopeCandidates_scopeFold (scopes : List String) (hv : String)
    (m0 : List (String × List String)) (p x : String) :
    x ∈ scopeCandidates (scopes.foldl (fun m s => pushAssoc m s hv) m0) p ↔
      x ∈ scopeCandidates m0 p ∨
        ((scopes.any fun sc => scopeMatches sc p) = true ∧ x = hv) := by
  induction scopes generalizing m0 with
  | nil => simp
  | cons s t ih =>
    rw [List.foldl_cons, ih, mem_scopeCandidates_pushAssoc]
    simp only [List.any_cons, Bool.or_eq_true]
    tauto

theorem mem_scopeCandidates_foldl (commits : List StructuredCommit) (acc : TrailerIndex)
    (p x : String) :
    x ∈ scopeCandidates (commits.foldl indexStep acc).byScope p ↔
      x ∈ scopeCandidates acc.byScope p ∨
        ∃ c ∈ commits, (c.scope.any fun sc => scopeMatches sc p) = true ∧ c.hash = x := by
  induction commits generalizing acc with
  | nil => simp
  | cons c t ih =>
    rw [List.foldl_cons, ih]
    have hstep : (indexStep acc c).byScope =
        c.scope.foldl (fun m s => pushAssoc m s c.hash) acc.byScope := rfl
    rw [hstep, mem_scopeCandidates_scopeFold]
    simp only [List.mem_cons]
    constructor
    · rintro ((hm | ⟨hany, hx⟩) | ⟨c', hc', hany', hx'⟩)
      · exact Or.inl hm
      · exact Or.inr ⟨c, Or.inl rfl, hany, hx.symm⟩
      · exact Or.inr ⟨c', Or.inr hc', hany', hx'⟩
    · rintro (hm | ⟨c', hc' | hc', hany', hx'⟩)
      · exact Or.inl (Or.inl hm)
      · subst hc'
        exact Or.inl (Or.inr ⟨hany', hx'.symm⟩)
      · exact Or.inr ⟨c', hc', hany', hx'⟩

theorem mem_byIntent_build (head gen : String) (commits : List StructuredCommit)
    (i : IntentType) (x : String) :
    x ∈ lookupAssoc (buildIndexPure head gen commits).byIntent i ↔
      ∃ c ∈ commits, c.intent = some i ∧ c.hash = x := by
  unfold buildIndexPure
  rw [mem_byIntent_foldl]
  simp [lookupAssoc]

theorem mem_bySession_build (head gen : String) (commits : List StructuredCommit)
    (s : String) (hs : s ≠ "") (x : String) :
    x ∈ lookupAssoc (buildIndexPure head gen commits).bySession s ↔
      ∃ c ∈ commits, c.session = some s ∧ c.hash = x := by
  unfold buildIndexPure
  rw [mem_bySession_foldl _ _ _ hs]
  simp [lookupAssoc]

theorem mem_withDecidedAgainst_build (head gen : String) (commits : List StructuredCommit)
    (x : String) :
    x ∈ (buildIndexPure head gen commits).withDecidedAgainst ↔
      ∃ c ∈ commits, c.decidedAgainst ≠ [] ∧ c.hash = x := by
  unfold buildIndexPure
  rw [mem_withDecidedAgainst_foldl]
  simp

theorem mem_scopeCandidates_build (head gen : String) (commits : List StructuredCommit)
    (p x : String) :
    x ∈ scopeCandidates (buildIndexPure head gen commits).byScope p ↔
      ∃ c ∈ commits, (c.scope.any fun sc => scopeMatches sc p) = true ∧ c.hash = x := by
  unfold buildIndexPure
  rw [mem_scopeCandidates_foldl]
  simp [scopeCandidates]

/-! ## Candidate-set invariant lemmas -/

theorem exists_hash_merge (commits : List StructuredCommit)
    (hnodup : (commits.map StructuredCommit.hash).Nodup) (x : String)
    (A B : StructuredCommit → Bool) :
    ((∃ c ∈ commits, c.hash = x ∧ A c = true) ∧
        (∃ c ∈ commits, c.hash = x ∧ B c = true)) ↔
      ∃ c ∈ commits, c.hash = x ∧ (A c && B c) = true := by
  constructor
  · rintro ⟨⟨c1, hc1, hh1, hA⟩, ⟨c2, hc2, hh2, hB⟩⟩
    have he : c1 = c2 :=
      List.inj_on_of_nodup_map hnodup hc1 hc2 (by rw [hh1, hh2])
    subst he
    exact ⟨c1, hc1, hh1, by simp [hA, hB]⟩
  · rintro ⟨c, hc, hh, hAB⟩
    rw [Bool.and_eq_true] at hAB
    exact ⟨⟨c, hc, hh, hAB.1⟩, ⟨c, hc, hh, hAB.2⟩⟩

theorem candOk_intersect (commits : List StructuredCommit)
    (hnodup : (commits.map StructuredCommit.hash).Nodup)
    (cand : Option (List String)) (Q : StructuredCommit → Bool) (L : List String)
    (P : StructuredCommit → Bool) (hok : CandOk commits cand Q)
    (hL : ∀ x, x ∈ L ↔ ∃ c ∈ commits, c.hash = x ∧ P c = true) :
    CandOk commits (intersectStep cand L) (fun c => Q c && P c) := by
  cases cand with
  | none =>
    refine ⟨nodup_setFromList L, fun x => ?_⟩
    rw [mem_setFromList, hL]
    unfold CandOk at hok
    constructor
    · rintro ⟨c, hc, hh, hP⟩
      exact ⟨c, hc, hh, by rw [Bool.and_eq_true]; exact ⟨hok c, hP⟩⟩
    · rintro ⟨c, hc, hh, hQP⟩
      rw [Bool.and_eq_true] at hQP
      exact ⟨c, hc, hh, hQP.2⟩
  | some l =>
    obtain ⟨hnd, hmem⟩ := hok
    refine ⟨hnd.filter _, fun x => ?_⟩
    rw [List.mem_filter]
    have hcontains : ((L.contains x) = true) ↔ x ∈ L := by
      simp
    rw [hmem x, hcontains, hL, exists_hash_merge commits hnodup x Q P]

theorem candOk_skip (commits : List StructuredCommit) (cand : Option (List String))
    (Q P : StructuredCommit → Bool) (hok : CandOk commits cand Q)
    (hP : ∀ c, P c = true) :
    CandOk commits cand (fun c => Q c && P c) := by
  cases cand with
  | none =>
    intro c
    unfold CandOk at hok
    rw [Bool.and_eq_true]
    exact ⟨hok c, hP c⟩
  | some l =>
    obtain ⟨hnd, hmem⟩ := hok
    refine ⟨hnd, fun x => ?_⟩
    rw [hmem x]
    constructor
    · rintro ⟨c, hc, hh, hQ⟩
      exact ⟨c, hc, hh, by rw [Bool.and_eq_true]; exact ⟨hQ, hP c⟩⟩
    · rintro ⟨c, hc, hh, hQP⟩
      rw [Bool.and_eq_true] at hQP
      exact ⟨c, hc, hh, hQP.1⟩

theorem candOk_qIntentsStep (head gen : String) (commits : List StructuredCommit)
    (params : QueryParams)
    (hnodup : (commits.map StructuredCommit.hash).Nodup)
    (cand : Option (List String)) (Q : StructuredCommit → Bool)
    (hok : CandOk commits cand Q) :
    CandOk commits (qIntentsStep (buildIndexPure head gen commits) params cand)
      (fun c => Q c && passesIntents params c) := by
  unfold qIntentsStep
  by_cases hg : params.intents.length > 0
  · rw [if_pos hg]
    refine candOk_intersect commits hnodup cand Q _ _ hok fun x => ?_
    simp only [List.mem_flatMap]
    constructor
    · rintro ⟨i, hi, hx⟩
      rw [mem_byIntent_build] at hx
      obtain ⟨c, hc, hci, hch⟩ := hx
      refine ⟨c, hc, hch, ?_⟩
      unfold passesIntents
      rw [if_pos hg, hci]
      simpa using hi
    · rintro ⟨c, hc, hch, hP⟩
      unfold passesIntents at hP
      rw [if_pos hg] at hP
      rcases hci : c.intent with _ | i
      · rw [hci] at hP
        exact absurd hP (by simp)
      · rw [hci] at hP
        refine ⟨i, ?_, ?_⟩
        · simpa using hP
        · rw [mem_byIntent_build]
          exact ⟨c, hc, hci, hch⟩
  · rw [if_neg hg]
    refine candOk_skip commits cand Q _ hok fun c => ?_
    unfold passesIntents
    rw [if_neg hg]

theorem candOk_qSessionStep (head gen : String) (commits : List StructuredCommit)
    (params : QueryParams)
    (hnodup : (commits.map StructuredCommit.hash).Nodup)
    (cand : Option (List String)) (Q : StructuredCommit → Bool)
    (hok : CandOk commits cand Q) :
    CandOk commits (qSessionStep (buildIndexPure head gen commits) params cand)
      (fun c => Q c && passesSession params c) := by
  unfold qSessionStep
  rcases hps : params.session with _ | s
  · refine candOk_skip commits cand Q _ hok fun c => ?_
    unfold passesSession
    rw [hps]
  · dsimp only
    by_cases hse : s == ""
    · rw [if_pos hse]
      refine candOk_skip commits cand Q _ hok fun c => ?_
      unfold passesSession
      rw [hps]
      dsimp only
      rw [if_pos hse]
    · rw [if_neg hse]
      refine candOk_intersect commits hnodup cand Q _ _ hok fun x => ?_
      rw [mem_bySession_build _ _ _ _ (by simpa using hse)]
      constructor
      · rintro ⟨c, hc, hcs, hch⟩
        refine ⟨c, hc, hch, ?_⟩
        unfold passesSession
        rw [hps]
        dsimp only
        rw [if_neg hse, hcs]
        simp
      · rintro ⟨c, hc, hch, hP⟩
        unfold passesSession at hP
        rw [hps] at hP
        dsimp only at hP
        rw [if_neg hse] at hP
        exact ⟨c, hc, by simpa using hP, hch⟩

theorem candOk_qDecisionsStep (head gen : String) (commits : List StructuredCommit)
    (params : QueryParams)
    (hnodup : (commits.map StructuredCommit.hash).Nodup)
    (hda : params.decidedAgainst = none ∨ params.decidedAgainst = some "")
    (cand : Option (List String)) (Q : StructuredCommit → Bool)
    (hok : CandOk commits cand Q) :
    CandOk commits (qDecisionsStep (buildIndexPure head gen commits) params cand)
      (fun c => Q c && passesDecisions params c) := by
  have hopt : optActive params.decidedAgainst = false := by
    rcases hda with h | h <;> simp [h, optActive]
  unfold qDecisionsStep
  rw [hopt, Bool.or_false]
  by_cases hg : params.decisionsOnly
  · rw [if_pos hg]
    refine candOk_intersect commits hnodup cand Q _ _ hok fun x => ?_
    rw [mem_withDecidedAgainst_build]
    constructor
    · rintro ⟨c, hc, hcd, hch⟩
      refine ⟨c, hc, hch, ?_⟩
      unfold passesDecisions
      rw [if_pos hg]
      simpa [List.length_pos] using hcd
    · rintro ⟨c, hc, hch, hP⟩
      unfold passesDecisions at hP
      rw [if_pos hg] at hP
      refine ⟨c, hc, ?_, hch⟩
      simpa [List.length_pos] using hP
  · rw [if_neg hg]
    refine candOk_skip commits cand Q _ hok fun c => ?_
    unfold passesDecisions
    rw [if_neg hg]

theorem candOk_qScopeStep (head gen : String) (commits : List StructuredCommit)
    (params : QueryParams)
    (hnodup : (commits.map StructuredCommit.hash).Nodup)
    (cand : Option (List String)) (Q : StructuredCommit → Bool)
    (hok : CandOk commits cand Q) :
    CandOk commits (qScopeStep (buildIndexPure head gen commits) params cand)
      (fun c => Q c && passesScope params c) := by
  unfold qScopeStep
  rcases hps : params.scope with _ | p
  · refine candOk_skip commits cand Q _ hok fun c => ?_
    unfold passesScope
    rw [hps]
  · dsimp only
    by_cases hpe : p == ""
    · rw [if_pos hpe]
      refine candOk_skip commits cand Q _ hok fun c => ?_
      unfold passesScope
      rw [hps]
      dsimp only
      rw [if_pos hpe]
    · rw [if_neg hpe]
      refine candOk_intersect commits hnodup cand Q _ _ hok fun x => ?_
      rw [mem_scopeCandidates_build]
      constructor
      · rintro ⟨c, hc, hany, hch⟩
        refine ⟨c, hc, hch, ?_⟩
        unfold passesScope
        rw [hps]
        dsimp only
        rw [if_neg hpe]
        exact hany
      · rintro ⟨c, hc, hch, hP⟩
        unfold passesScope at hP
        rw [hps] at hP
        dsimp only at hP
        rw [if_neg hpe] at hP
        exact ⟨c, hc, hP, hch⟩

/-! ## Candidate-set existence -/

theorem intersectStep_isSome (cand : Option (List String)) (L : List String) :
    (intersectStep cand L).isSome := by
  cases cand <;> rfl

theorem qIntentsStep_isSome (index : TrailerIndex) (params : QueryParams)
    (cand : Option (List String)) (h : cand.isSome) :
    (qIntentsStep index params cand).isSome := by
  unfold qIntentsStep
  split
  · exact intersectStep_isSome _ _
  · exact h

theorem qSessionStep_isSome (index : TrailerIndex) (params : QueryParams)
    (cand : Option (List String)) (h : cand.isSome) :
    (qSessionStep index params cand).isSome := by
  unfold qSessionStep
  rcases params.session with _ | s
  · exact h
  · dsimp only
    split
    · exact h
    · exact intersectStep_isSome _ _

theorem qDecisionsStep_isSome (index : TrailerIndex) (params : QueryParams)
    (cand : Option (List String)) (h : cand.isSome) :
    (qDecisionsStep index params cand).isSome := by
  unfold qDecisionsStep
  split
  · exact intersectStep_isSome _ _
  · exact h

theorem qScopeStep_isSome (index : TrailerIndex) (params : QueryParams)
    (cand : Option (List String)) (h : cand.isSome) :
    (qScopeStep index params cand).isSome := by
  unfold qScopeStep
  rcases params.scope with _ | p
  · exact h
  · dsimp only
    split
    · exact h
    · exact intersectStep_isSome _ _

theorem qIntentsStep_isSome_of_active (index : TrailerIndex) (params : QueryParams)
    (cand : Option (List String)) (h : params.intents.length > 0) :
    (qIntentsStep index params cand).isSome := by
  unfold qIntentsStep
  rw [if_pos h]
  exact intersectStep_isSome _ _

theorem qSessionStep_isSome_of_active (index : TrailerIndex) (params : QueryParams)
    (cand : Option (List String)) (h : optActive params.session = true) :
    (qSessionStep index params cand).isSome := by
  unfold qSessionStep
  rcases hps : params.session with _ | s
  · rw [hps] at h
    exact absurd h (by simp [optActive])
  · rw [hps] at h
    dsimp only
    rw [if_neg (by simpa [optActive] using h)]
    exact intersectStep_isSome _ _

theorem qDecisionsStep_isSome_of_active (index : TrailerIndex) (params : QueryParams)
    (cand : Option (List String))
    (h : params.decisionsOnly = true ∨ optActive params.decidedAgainst = true) :
    (qDecisionsStep index params cand).isSome := by
  unfold qDecisionsStep
  rw [if_pos (by rcases h with h | h <;> simp [h])]
  exact intersectStep_isSome _ _

theorem qScopeStep_isSome_of_active (index : TrailerIndex) (params : QueryParams)
    (cand : Option (List String)) (h : optActive params.scope = true) :
    (qScopeStep index params cand).isSome := by
  unfold qScopeStep
  rcases hps : params.scope with _ | p
  · rw [hps] at h
    exact absurd h (by simp [optActive])
  · rw [hps] at h
    dsimp only
    rw [if_neg (by simpa [optActive] using h)]
    exact intersectStep_isSome _ _

theorem canUseIndex_plain (params : QueryParams) :
    canUseIndex params ⟨false, none⟩ =
      (decide (params.intents.length > 0) || optActive params.scope ||
        optActive params.session || params.decisionsOnly ||
        optActive params.decidedAgainst) := by
  simp [canUseIndex, optActive]

theorem queryChain_isSome (index : TrailerIndex) (params : QueryParams)
    (hactive : canUseIndex params ⟨false, none⟩ = true) :
    (qScopeStep index params (qDecisionsStep index params
      (qSessionStep index params (qIntentsStep index params none)))).isSome := by
  rw [canUseIndex_plain] at hactive
  simp only [Bool.or_eq_true, decide_eq_true_eq] at hactive
  rcases hactive with ((((hI | hSc) | hSe) | hD) | hDA)
  · exact qScopeStep_isSome _ _ _ (qDecisionsStep_isSome _ _ _
      (qSessionStep_isSome _ _ _ (qIntentsStep_isSome_of_active _ _ _ (by simpa using hI))))
  · exact qScopeStep_isSome_of_active _ _ _ hSc
  · exact qScopeStep_isSome _ _ _ (qDecisionsStep_isSome _ _ _
      (qSessionStep_isSome_of_active _ _ _ hSe))
  · exact qScopeStep_isSome _ _ _ (qDecisionsStep_isSome_of_active _ _ _ (Or.inl hD))
  · exact qScopeStep_isSome _ _ _ (qDecisionsStep_isSome_of_active _ _ _ (Or.inr hDA))

theorem candOk_congr (commits : List StructuredCommit) (cand : Option (List String))
    (Q R : StructuredCommit → Bool) (h : ∀ c, Q c = R c)
    (hok : CandOk commits cand Q) : CandOk commits cand R := by
  cases cand with
  | none =>
    intro c
    rw [← h c]
    exact hok c
  | some l =>
    obtain ⟨hnd, hm⟩ := hok
    refine ⟨hnd, fun x => ?_⟩
    rw [hm x]
    exact exists_congr fun c => by rw [h c]

/-! ## Claim C2 -/

/-- C2 (amended): with zero active trailer filters the index path returns
the empty set for any index; and for an index built from the same commits,
the index path and the full-scan path agree on the returned hash set for
every query without a decided-against keyword filter, provided at least one
filter is active, the commit hashes are pairwise distinct, and the limit
does not truncate.  (As literally stated the claim fails when the limit
truncates — the two paths enumerate candidates in different orders — or
when two commits share a hash; see the counterexample.) -/
theorem claim_C2_index_matches_scan :
    (∀ (index : TrailerIndex) (params : QueryParams),
        canUseIndex params ⟨false, none⟩ = false →
          queryIndexForHashes index params = []) ∧
    (∀ (head gen : String) (commits : List StructuredCommit) (params : QueryParams),
        (commits.map StructuredCommit.hash).Nodup →
        (params.decidedAgainst = none ∨ params.decidedAgainst = some "") →
        canUseIndex params ⟨false, none⟩ = true →
        commits.length ≤ params.limit →
        ∀ x, x ∈ queryIndexForHashes (buildIndexPure head gen commits) params ↔
          x ∈ (applyQueryFilters commits params).map StructuredCommit.hash) := by
  constructor
  · intro index params hfalse
    rw [canUseIndex_plain] at hfalse
    obtain ⟨⟨⟨⟨hI, hSc⟩, hSe⟩, hD⟩, hDA⟩ :
        (((decide (params.intents.length > 0) = false ∧ optActive params.scope = false) ∧
          optActive params.session = false) ∧ params.decisionsOnly = false) ∧
          optActive params.decidedAgainst = false := by
      simpa [Bool.or_eq_false_iff, and_assoc] using hfalse
    have e1 : qIntentsStep index params none = none := by
      unfold qIntentsStep
      rw [if_neg (by simpa using hI)]
    have e2 : qSessionStep index params none = none := by
      unfold qSessionStep
      rcases hps : params.session with _ | s
      · rfl
      · rw [hps] at hSe
        dsimp only
        rw [if_pos (by simpa [optActive] using hSe)]
    have e3 : qDecisionsStep index params none = none := by
      unfold qDecisionsStep
      rw [if_neg (by simp [hD, hDA])]
    have e4 : qScopeStep index params none = none := by
      unfold qScopeStep
      rcases hps : params.scope with _ | p
      · rfl
      · rw [hps] at hSc
        dsimp only
        rw [if_pos (by simpa [optActive] using hSc)]
    unfold queryIndexForHashes
    rw [e1, e2, e3, e4]
  · intro head gen commits params hnodup hda hactive hlim x
    have hDA : ∀ c, passesDecidedAgainst params c = true := by
      intro c
      unfold passesDecidedAgainst
      rcases hda with h | h <;> rw [h]
      rfl
    have h0 : CandOk commits none (fun _ => true) := fun _ => rfl
    have h1 := candOk_qIntentsStep head gen commits params hnodup none _ h0
    have h2 := candOk_qSessionStep head gen commits params hnodup _ _ h1
    have h3 := candOk_qDecisionsStep head gen commits params hnodup hda _ _ h2
    have h4 := candOk_qScopeStep head gen commits params hnodup _ _ h3
    have h5 := candOk_congr commits _ _ (passesAll params)
      (fun c => by
        simp only [passesAll, hDA c, Bool.and_true, Bool.true_and]
        cases hI : passesIntents params c <;> cases hSe : passesSession params c <;>
          cases hD : passesDecisions params c <;> cases hSc : passesScope params c <;>
          simp [hI, hSe, hD, hSc]) h4
    have hsome := queryChain_isSome (buildIndexPure head gen commits) params hactive
    obtain ⟨l, hl⟩ := Option.isSome_iff_exists.mp hsome
    rw [hl] at h5
    obtain ⟨hnd, hmem⟩ := h5
    unfold queryIndexForHashes
    rw [hl]
    dsimp only
    have hsub : ∀ y ∈ l, y ∈ commits.map StructuredCommit.hash := by
      intro y hy
      obtain ⟨c, hc, hch, _⟩ := (hmem y).mp hy
      exact List.mem_map.mpr ⟨c, hc, hch⟩
    have hlen : l.length ≤ commits.length := by
      calc l.length = l.toFinset.card := (List.toFinset_card_of_nodup hnd).symm
        _ ≤ (commits.map StructuredCommit.hash).toFinset.card := by
            refine Finset.card_le_card fun y hy => ?_
            rw [List.mem_toFinset] at hy ⊢
            exact hsub y hy
        _ ≤ (commits.map StructuredCommit.hash).length := List.toFinset_card_le _
        _ = commits.length := List.length_map _ _
    rw [List.take_of_length_le (le_trans hlen hlim)]
    unfold applyQueryFilters
    rw [List.take_of_length_le
      (le_trans (applyPredicateFilters_sublist commits params).length_le hlim)]
    rw [hmem x, List.mem_map]
    constructor
    · rintro ⟨c, hc, hch, hall⟩
      exact ⟨c, (mem_applyPredicateFilters commits params c).mpr ⟨hc, hall⟩, hch⟩
    · rintro ⟨c, hcf, hch⟩
      obtain ⟨hc, hall⟩ := (mem_applyPredicateFilters commits params c).mp hcf
      exact ⟨c, hc, hch, hall⟩

/-- C2 counterexample: as literally stated the equivalence fails.  With
`intents = [enable-capability, fix-defect]` and `limit = 1` the scan returns
hash h1 (commit-list order) while the index path returns h2 only (intent-key
union order); and with two commits sharing hash h, the intent-and-session
query returns h on the index path (each inverted map contains h) while the
scan returns nothing (no single commit passes both filters).  Both queries
carry no decided-against keyword filter. -/
theorem claim_C2_counterexample :
    (exParamsAB.decidedAgainst = none ∧
      "h1" ∈ (applyQueryFilters [exCommitB, exCommitA] exParamsAB).map
        StructuredCommit.hash ∧
      "h1" ∉ queryIndexForHashes
        (buildIndexPure "HEAD" "2024" [exCommitB, exCommitA]) exParamsAB) ∧
    (exParamsDup.decidedAgainst = none ∧
      "h" ∈ queryIndexForHashes
        (buildIndexPure "HEAD" "2024" [dupHash1, dupHash2]) exParamsDup ∧
      "h" ∉ (applyQueryFilters [dupHash1, dupHash2] exParamsDup).map
        StructuredCommit.hash) := by
  refine ⟨⟨rfl, ?_, ?_⟩, rfl, ?_, ?_⟩ <;> decide

/-- Witness for C2: the spec section 8 scope scenario (3 commits, scope
query auth) satisfies the hypotheses and both paths return exactly hx; a
filterless query hits the empty-set branch. -/
theorem claim_C2_witness :
    (([exScopeX, exScopeY, exScopeZ].map StructuredCommit.hash).Nodup ∧
      canUseIndex exParamsScope ⟨false, none⟩ = true ∧
      [exScopeX, exScopeY, exScopeZ].length ≤ exParamsScope.limit) ∧
    ("hx" ∈ queryIndexForHashes
        (buildIndexPure "HEAD" "2024" [exScopeX, exScopeY, exScopeZ]) exParamsScope ↔
      "hx" ∈ (applyQueryFilters [exScopeX, exScopeY, exScopeZ] exParamsScope).map
        StructuredCommit.hash) ∧
    canUseIndex ⟨[], none, none, false, none, 10⟩ ⟨false, none⟩ = false ∧
    queryIndexForHashes (buildIndexPure "HEAD" "2024" [exScopeX])
      ⟨[], none, none, false, none, 10⟩ = [] :=
  ⟨⟨by decide, by decide, by decide⟩,
    claim_C2_index_matches_scan.2 "HEAD" "2024" [exScopeX, exScopeY, exScopeZ]
      exParamsScope (by decide) (Or.inl rfl) (by decide) (by decide) "hx",
    by decide,
    claim_C2_index_matches_scan.1 (buildIndexPure "HEAD" "2024" [exScopeX])
      ⟨[], none, none, false, none, 10⟩ (by decide)⟩

/-! ## Claim C3 -/

/-- C3 (amended): when the usable fresh index resolves zero candidate hashes
while trailer filters are active, the query caller reports the empty result
("No structured commits found.") and does not fall back to the full scan;
the full git-log path is taken only when no fresh index is available or the
hash fetch itself fails. -/
theorem claim_C3_zero_hits_report_empty :
    (∀ (params : QueryParams) (opts : IndexOpts) (idx : TrailerIndex) (fetchOk : Bool),
        canUseIndex params opts = true →
        queryIndexForHashes idx params = [] →
        chooseQueryRoute params opts (some idx) fetchOk = .emptyNoMatches) ∧
    (∀ (params : QueryParams) (opts : IndexOpts) (fetchOk : Bool),
        canUseIndex params opts = true →
        chooseQueryRoute params opts none fetchOk = .fullScan) ∧
    (∀ (params : QueryParams) (opts : IndexOpts) (idx : TrailerIndex),
        canUseIndex params opts = true →
        (queryIndexForHashes idx params).length > 0 →
        chooseQueryRoute params opts (some idx) false = .fullScan) := by
  refine ⟨?_, ?_, ?_⟩
  · intro params opts idx fetchOk hactive hzero
    unfold chooseQueryRoute
    rw [if_pos hactive]
    dsimp only
    rw [hzero]
    rfl
  · intro params opts fetchOk hactive
    unfold chooseQueryRoute
    rw [if_pos hactive]
  · intro params opts idx hactive hpos
    unfold chooseQueryRoute
    rw [if_pos hactive]
    dsimp only
    rw [if_pos hpos, if_neg (by simp)]

/-- C3 counterexample: a decided-against keyword query over a one-commit log
with no decided-against entries is index-usable, resolves zero hashes, and
the caller reports the empty result — it does not fall back to full
precision filtering as the claim demands. -/
theorem claim_C3_counterexample :
    canUseIndex exParamsRedis ⟨false, none⟩ = true ∧
    queryIndexForHashes (buildIndexPure "HEAD" "2024" [exCommitB]) exParamsRedis = [] ∧
    chooseQueryRoute exParamsRedis ⟨false, none⟩
      (some (buildIndexPure "HEAD" "2024" [exCommitB])) true = .emptyNoMatches ∧
    chooseQueryRoute exParamsRedis ⟨false, none⟩
      (some (buildIndexPure "HEAD" "2024" [exCommitB])) true ≠ .fullScan := by
  refine ⟨?_, ?_, ?_, ?_⟩ <;> decide

/-- Witness for C3 at a concrete decided-against query over an empty index
and over an unavailable index. -/
theorem claim_C3_witness :
    (canUseIndex exParamsRedis ⟨false, none⟩ = true ∧
      queryIndexForHashes exStaleIdx exParamsRedis = []) ∧
    chooseQueryRoute exParamsRedis ⟨false, none⟩ (some exStaleIdx) true =
      .emptyNoMatches ∧
    chooseQueryRoute exParamsRedis ⟨false, none⟩ none true = .fullScan :=
  ⟨⟨by decide, by decide⟩,
    claim_C3_zero_hits_report_empty.1 exParamsRedis ⟨false, none⟩ exStaleIdx true
      (by decide) (by decide),
    claim_C3_zero_hits_report_empty.2.1 exParamsRedis ⟨false, none⟩ true (by decide)⟩

/-! ## Claim C6 -/

theorem loadIndex_missing (gd hd : String) :
    loadIndex (.ok gd) (.ok hd) .missing = .ok none := rfl

theorem loadIndex_corrupt (gd hd : String) :
    loadIndex (.ok gd) (.ok hd) .corrupt = .ok none := rfl

theorem loadIndex_wellFormed (gd hd : String) (j : TrailerIndex) :
    loadIndex (.ok gd) (.ok hd) (.wellFormed j) =
      if j.headCommit == hd then
        (if j.version == 1 then .ok (some j) else .ok none)
      else .ok none := by
  unfold loadIndex checkFreshness readParse
  by_cases hf : j.headCommit == hd
  · by_cases hv : j.version == 1 <;> simp [hf, hv]
  · simp [hf]

/-- C6: `load()` returns the index only when the stored head pointer equals
the current tip (and the format version is recognized); a stale but
well-formed file, a missing file, a corrupt file and an unrecognized format
version all yield the explicit not-available value `Ok(null)`, never an
error. -/
theorem claim_C6_load_only_when_fresh :
    ∀ (gd hd : String) (file : IndexFile),
      (∀ idx, loadIndex (.ok gd) (.ok hd) file = .ok (some idx) →
        file = .wellFormed idx ∧ idx.headCommit = hd ∧ idx.version = 1) ∧
      ((file = .missing ∨ file = .corrupt ∨
          (∀ idx, file = .wellFormed idx → idx.headCommit ≠ hd ∨ idx.version ≠ 1)) →
        loadIndex (.ok gd) (.ok hd) file = .ok none) := by
  intro gd hd file
  constructor
  · intro idx hload
    cases file with
    | missing => exact absurd (loadIndex_missing gd hd ▸ hload) (by simp)
    | corrupt => exact absurd (loadIndex_corrupt gd hd ▸ hload) (by simp)
    | wellFormed j =>
      rw [loadIndex_wellFormed] at hload
      by_cases hf : j.headCommit == hd
      · rw [if_pos hf] at hload
        by_cases hv : j.version == 1
        · rw [if_pos hv] at hload
          have hj : j = idx := by
            simpa using hload
          subst hj
          exact ⟨rfl, by simpa using hf, by simpa using hv⟩
        · rw [if_neg hv] at hload
          exact absurd hload (by simp)
      · rw [if_neg hf] at hload
        exact absurd hload (by simp)
  · rintro (hfile | hfile | hfile)
    · subst hfile
      exact loadIndex_missing gd hd
    · subst hfile
      exact loadIndex_corrupt gd hd
    · cases file with
      | missing => exact loadIndex_missing gd hd
      | corrupt => exact loadIndex_corrupt gd hd
      | wellFormed j =>
        rw [loadIndex_wellFormed]
        rcases hfile j rfl with hne | hne
        · rw [if_neg (by simpa using hne)]
        · by_cases hf : j.headCommit == hd
          · rw [if_pos hf, if_neg (by simpa using hne)]
          · rw [if_neg hf]

/-- Witness for C6: a fresh version-1 file loads as the index; a stale file,
a fresh file of version 2, a missing file and a corrupt file all load as
not-available. -/
theorem claim_C6_witness :
    (loadIndex (.ok "g") (.ok "HEAD") (.wellFormed exFreshIdx) =
        .ok (some exFreshIdx) →
      IndexFile.wellFormed exFreshIdx = .wellFormed exFreshIdx ∧
        exFreshIdx.headCommit = "HEAD" ∧ exFreshIdx.version = 1) ∧
    loadIndex (.ok "g") (.ok "HEAD") (.wellFormed exStaleIdx) = .ok none ∧
    loadIndex (.ok "g") (.ok "HEAD") (.wellFormed exVersion2Idx) = .ok none ∧
    loadIndex (.ok "g") (.ok "HEAD") .missing = .ok none ∧
    loadIndex (.ok "g") (.ok "HEAD") .corrupt = .ok none :=
  ⟨(claim_C6_load_only_when_fresh "g" "HEAD" (.wellFormed exFreshIdx)).1 exFreshIdx,
    (claim_C6_load_only_when_fresh "g" "HEAD" (.wellFormed exStaleIdx)).2
      (Or.inr (Or.inr fun idx hidx => by
        cases hidx
        exact Or.inl (by decide))),
    (claim_C6_load_only_when_fresh "g" "HEAD" (.wellFormed exVersion2Idx)).2
      (Or.inr (Or.inr fun idx hidx => by
        cases hidx
        exact Or.inr (by decide))),
    (claim_C6_load_only_when_fresh "g" "HEAD" .missing).2 (Or.inl rfl),
    (claim_C6_load_only_when_fresh "g" "HEAD" .corrupt).2 (Or.inr (Or.inl rfl))⟩

/-! ## Claim C7 -/

/-- C7 counterexample: `write()` performs exactly one filesystem operation —
a direct write of the index to its final path — and no rename at all, so the
persistence is not write-temp-then-rename. -/
theorem claim_C7_counterexample :
    writeIndex (.ok ".git") exStaleIdx =
      .ok ([FsOp.writeFile ".git/info/trailer-index.json" exStaleIdx],
        ".git/info/trailer-index.json") ∧
    ([FsOp.writeFile ".git/info/trailer-index.json" exStaleIdx].all
      fun op => !op.isRename) = true :=
  ⟨rfl, rfl⟩

/-- C7 (amended): `write()` persists the index with a single direct write to
the final index path inside the git directory — no temp file and no rename;
readers are instead protected at load time, where an unparsable
(half-written) file is treated as not available. -/
theorem claim_C7_write_direct_no_rename :
    ∀ (d : String) (idx : TrailerIndex),
      writeIndex (.ok d) idx =
        .ok ([FsOp.writeFile (d ++ "/info/trailer-index.json") idx],
          d ++ "/info/trailer-index.json") ∧
      ([FsOp.writeFile (d ++ "/info/trailer-index.json") idx].all
        fun op => !op.isRename) = true ∧
      (∀ gd hd : String, loadIndex (.ok gd) (.ok hd) .corrupt = .ok none) := by
  intro d idx
  exact ⟨rfl, rfl, fun gd hd => rfl⟩

/-! ## Claim C8 -/

/-- C8: the context pipeline never returns an error to its caller: for every
combination of stdin behavior, index load outcome, git fallback outcome,
session env and prompt text the result is an Ok output string; the prompt
text (including the empty prompt) does not influence the outcome; and with
a completely absent index plus a failing git fallback the pipeline emits
nothing (the empty output). -/
theorem claim_C8_pipeline_never_throws :
    ∀ (stdinFails : Bool) (loadResult : Except String (Option TrailerIndex))
      (gitLogResult : Except String (List StructuredCommit))
      (sessionEnv : Option String) (promptText : String),
      (∃ out, mainContext stdinFails loadResult gitLogResult sessionEnv promptText =
        .ok out) ∧
      (∀ p2, mainContext stdinFails loadResult gitLogResult sessionEnv promptText =
        mainContext stdinFails loadResult gitLogResult sessionEnv p2) ∧
      (∀ e, mainContext stdinFails (.ok none) (.error e) sessionEnv promptText =
        .ok "") := by
  intro stdinFails loadResult gitLogResult sessionEnv promptText
  refine ⟨?_, fun p2 => ?_, fun e => rfl⟩
  · cases loadResult with
    | ok v =>
      cases v with
      | some idx => exact ⟨_, rfl⟩
      | none =>
        cases gitLogResult with
        | ok parsed => exact ⟨_, rfl⟩
        | error e => exact ⟨"", rfl⟩
    | error e =>
      cases gitLogResult with
      | ok parsed => exact ⟨_, rfl⟩
      | error e2 => exact ⟨"", rfl⟩
  · cases loadResult with
    | ok v =>
      cases v with
      | some idx => rfl
      | none => cases gitLogResult <;> rfl
    | error e => cases gitLogResult <;> rfl

/-! ## Claim C9 -/

/-- C9 counterexample: a non-empty context block emitted by the hook carries
no mode tag at all — the wrapper is the bare, attribute-free
git-memory-context tag, and the string "mode=" does not occur in the
output — contradicting the claim that every non-empty block carries a
machine-readable mode tag. -/
theorem claim_C9_counterexample :
    formatContext exContextData =
      "<git-memory-context>\nRecent commits:\nabcdef1 feat(auth): add login | auth\n</git-memory-context>" ∧
    formatContext exContextData ≠ "" ∧
    ¬ (("mode=".data).IsInfix (formatContext exContextData).data) := by
  refine ⟨by decide, by decide, by decide⟩

/-- C9 (amended): every context block the hook emits is either empty or
wrapped in the fixed attribute-free git-memory-context tag pair; the hook
implements a single passive mode and tags nothing, so in particular no
emitted block ever carries a model-enhanced tag. -/
theorem claim_C9_untagged_fixed_wrapper :
    ∀ data : ContextData,
      formatContext data = "" ∨
      ∃ body, formatContext data =
        "<git-memory-context>\n" ++ body ++ "\n</git-memory-context>" := by
  intro data
  unfold formatContext
  split
  · exact Or.inl rfl
  · exact Or.inr ⟨_, rfl⟩

end SGC
